import Mathlib

/-!
Verification of the mini mark-and-sweep garbage collector
(`mini_garabge_collector.cpp`, namespace `_tn`).

Shallow embedding choices:
* A `Gc_object*` is identified by a `Nat` (its address is its identity).
* The per-object reference structure (the overridable `markChildren` hook)
  is a function `g : Nat → List Nat` giving, for each object, the list of
  objects its hook calls `mark()` on, in order.
* The collector state `GCState` holds `mHeap` and `mRoots` as `Finset Nat`,
  `mPinned` (a `std::map<Gc_object*, unsigned int>`) as an association list
  `List (Nat × Nat)`, and the set of objects whose `mMarked` flag is `true`
  as a `Finset Nat`.  The iteration order of the `std::set`/`std::map` is
  immaterial for the collector state (this is proved below), so the
  association-list order is not significant.
* `unsigned int` pin counts are modeled as `Nat` reduced modulo `2 ^ 32`
  (`UINT_MOD`), matching 32-bit `unsigned int` arithmetic: `++` and `--`
  wrap around.
* The recursion in `Gc_object::mark` has no structural termination measure
  in the source; it is embedded with an explicit fuel parameter counting
  the allowed recursion depth.  Fuel-independence of the result for any
  fuel exceeding the number of objects is proved below and is the formal
  rendering of termination of the traversal on finite object graphs.
* `assert(it != mPinned.end())` in `unpin` aborts the program; `unpin`
  therefore returns `Option GCState`, with `none` for the aborted run.
* The `verbose` diagnostics of `collect`/`sweep` print counts to stdout;
  they are modeled as the list of numbers printed (the wall-clock timing
  line, which reads a real-time clock, is outside the embedding).
-/

namespace Tn

/-- Children hook traversal: `Gc_object::mark()` sets `mMarked` and invokes
`markChildren`, which calls `mark()` on each referenced object in turn.
`m` is the set of objects whose `mMarked` flag is currently `true`;
the `fuel` argument bounds the recursion depth (see the file comment). -/
def mark (g : Nat → List Nat) : Nat → Finset Nat → Nat → Finset Nat
  | 0, m, _ => m
  | fuel+1, m, o => if o ∈ m then m else (g o).foldl (mark g fuel) (insert o m)

/-- Marking a whole list of objects in order (the loops of
`garbage_collector::collect` over `mRoots` and `mPinned`). -/
def markList (g : Nat → List Nat) (fuel : Nat) (m : Finset Nat) (l : List Nat) : Finset Nat :=
  l.foldl (mark g fuel) m

/-- Plain transitive reachability along the children hooks. -/
inductive Reach (g : Nat → List Nat) : Nat → Nat → Prop
  | refl (o : Nat) : Reach g o o
  | tail {o x y : Nat} : Reach g o x → y ∈ g x → Reach g o y

/-- Reachability along a path all of whose vertices avoid the set `m`
(the objects whose mark bit is already set block the traversal). -/
inductive ReachA (g : Nat → List Nat) (m : Finset Nat) : Nat → Nat → Prop
  | refl (o : Nat) : o ∉ m → ReachA g m o o
  | tail {o x y : Nat} : ReachA g m o x → y ∈ g x → y ∉ m → ReachA g m o y

/-- The collector state: `mHeap`, `mRoots`, `mPinned` and the set of
objects whose `mMarked` flag is `true`. -/
structure GCState where
  heap : Finset Nat
  roots : Finset Nat
  pinned : List (Nat × Nat)
  marked : Finset Nat
deriving DecidableEq

/-- Modulus of 32-bit `unsigned int` arithmetic. -/
def UINT_MOD : Nat := 4294967296

/-- `mPinned.find(o)`: first value stored under key `o`, if any. -/
def pfind : List (Nat × Nat) → Nat → Option Nat
  | [], _ => none
  | p :: ps, x => if p.1 = x then some p.2 else pfind ps x

/-- Overwrite the value of the first entry with key `x`
(the in-place update `(*it).second = c` through the found iterator). -/
def pset : List (Nat × Nat) → Nat → Nat → List (Nat × Nat)
  | [], _, _ => []
  | p :: ps, x, c => if p.1 = x then (x, c) :: ps else p :: pset ps x c

/-- Remove the first entry with key `x` (`mPinned.erase(it)`). -/
def perase : List (Nat × Nat) → Nat → List (Nat × Nat)
  | [], _ => []
  | p :: ps, x => if p.1 = x then ps else p :: perase ps x

/-- `garbage_collector::pin`: absent key gets count `1`; a present key has
its `unsigned int` count incremented (wrapping modulo `2 ^ 32`). -/
def pin (s : GCState) (o : Nat) : GCState :=
  match pfind s.pinned o with
  | none => { s with pinned := s.pinned ++ [(o, 1)] }
  | some c => { s with pinned := pset s.pinned o ((c + 1) % UINT_MOD) }

/-- `garbage_collector::unpin`: an absent key fails the assertion and the
program aborts (`none`); otherwise the count is decremented (wrapping
`unsigned int` arithmetic) and the entry erased when it reaches `0`. -/
def unpin (s : GCState) (o : Nat) : Option GCState :=
  match pfind s.pinned o with
  | none => none
  | some c =>
    if (c + (UINT_MOD - 1)) % UINT_MOD = 0 then
      some { s with pinned := perase s.pinned o }
    else
      some { s with pinned := pset s.pinned o ((c + (UINT_MOD - 1)) % UINT_MOD) }

/-- `garbage_collector::addRoot`. -/
def addRoot (s : GCState) (o : Nat) : GCState := { s with roots := insert o s.roots }

/-- `garbage_collector::removeRoot`. -/
def removeRoot (s : GCState) (o : Nat) : GCState := { s with roots := s.roots.erase o }

/-- `garbage_collector::addObject` (invoked by the `Gc_object` constructors). -/
def addObject (s : GCState) (o : Nat) : GCState := { s with heap := insert o s.heap }

/-- `garbage_collector::removeObject`. -/
def removeObject (s : GCState) (o : Nat) : GCState := { s with heap := s.heap.erase o }

/-- Iteration order of a `std::set<Gc_object*>`: ascending key order. -/
def setList (s : Finset Nat) : List Nat := s.sort (fun a b => a ≤ b)

/-- The mark phase of `collect`: call `mark()` on every root, then on every
key of the pin table. -/
def markPhase (g : Nat → List Nat) (fuel : Nat) (s : GCState) : Finset Nat :=
  markList g fuel (markList g fuel s.marked (setList s.roots)) (s.pinned.map Prod.fst)

/-- `garbage_collector::sweep`: every marked heap object is kept and its
mark bit cleared; every unmarked heap object is erased from the heap and
destroyed.  Mark bits of objects outside the heap are not touched. -/
def sweep (s : GCState) : GCState :=
  { s with heap := s.heap.filter (fun o => o ∈ s.marked),
           marked := s.marked \ s.heap }

/-- Numbers printed by the verbose branch of `sweep` (live and dead counts). -/
def sweepStats (s : GCState) : List Nat :=
  [(s.heap.filter (fun o => o ∈ s.marked)).card,
   (s.heap.filter (fun o => o ∉ s.marked)).card]

/-- `garbage_collector::collect`: mark from `mRoots` and `mPinned`, then
sweep.  The second component is the list of numbers printed when
`verbose` is set (root count, pin count, heap size, live, dead). -/
def collect (g : Nat → List Nat) (fuel : Nat) (verbose : Bool) (s : GCState) : GCState × List Nat :=
  (sweep { s with marked := markPhase g fuel s },
    (if verbose then [s.roots.card, s.pinned.length, s.heap.card] else []) ++
    (if verbose then sweepStats { s with marked := markPhase g fuel s } else []))

/-- `garbage_collector::live`: the current heap size. -/
def live (s : GCState) : Nat := s.heap.card

/-- Iterated `pin` of the same object. -/
def pinN (s : GCState) (o : Nat) : Nat → GCState
  | 0 => s
  | n+1 => pinN (pin s o) o n

/-- Iterated `unpin` of the same object; `none` as soon as one call aborts. -/
def unpinN (s : GCState) (o : Nat) : Nat → Option GCState
  | 0 => some s
  | n+1 => (unpin s o).bind (fun t => unpinN t o n)

/-- An object is protected at the start of a cycle when it is a root or has
an entry in the pin table. -/
def RootOrPinned (s : GCState) (r : Nat) : Prop :=
  r ∈ s.roots ∨ r ∈ s.pinned.map Prod.fst

/-- An object is collector-reachable when some root or pinned object
reaches it through the children hooks. -/
def ReachableFrom (s : GCState) (g : Nat → List Nat) (x : Nat) : Prop :=
  ∃ r, RootOrPinned s r ∧ Reach g r x

/-- A collector state with nothing registered. -/
def emptyState : GCState := ⟨∅, ∅, [], ∅⟩

/-- Two-object cycle graph: `0` references `1` and `1` references `0`
(any other object also references `0`, keeping the graph within `{0, 1}`). -/
def gPair : Nat → List Nat := fun x => if x = 0 then [1] else [0]

/-- Vertex set of `gPair`. -/
def UPair : Finset Nat := Finset.range 2

/-- Graph with no references at all. -/
def gNil : Nat → List Nat := fun _ => []

/-- One edge `0 → 1`, no other references. -/
def gEdge : Nat → List Nat := fun x => if x = 0 then [1] else []

/-- State with one stale-marked, unreachable heap object. -/
def stStale : GCState := ⟨{0}, ∅, [], {0}⟩

/-- State with heap `{0, 1}`, root `0`, object `0` already marked. -/
def stRootMarked : GCState := ⟨{0, 1}, {0}, [], {0}⟩

/-- State with two stale-marked heap objects and a root outside the heap. -/
def stOutsideRoot : GCState := ⟨{0, 1}, {2}, [], {0, 1}⟩

/-- State with heap `{0, 1, 2}`, root `0`, nothing marked. -/
def stChain : GCState := ⟨{0, 1, 2}, {0}, [], ∅⟩

/-- Vertex set containing `stChain`'s objects. -/
def UChain : Finset Nat := Finset.range 3

theorem mark_zero (g : Nat → List Nat) (m : Finset Nat) (o : Nat) : mark g 0 m o = m := rfl

theorem mark_succ (g : Nat → List Nat) (fuel : Nat) (m : Finset Nat) (o : Nat) :
    mark g (fuel + 1) m o = if o ∈ m then m else markList g fuel (insert o m) (g o) := rfl

theorem markList_nil (g : Nat → List Nat) (fuel : Nat) (m : Finset Nat) :
    markList g fuel m [] = m := rfl

theorem markList_cons (g : Nat → List Nat) (fuel : Nat) (m : Finset Nat) (c : Nat) (l : List Nat) :
    markList g fuel m (c :: l) = markList g fuel (mark g fuel m c) l := rfl

theorem markList_append (g : Nat → List Nat) (fuel : Nat) (m : Finset Nat) (l₁ l₂ : List Nat) :
    markList g fuel m (l₁ ++ l₂) = markList g fuel (markList g fuel m l₁) l₂ :=
  List.foldl_append (mark g fuel) m l₁ l₂

theorem subset_markList (g : Nat → List Nat) (fuel : Nat)
    (h : ∀ m o, m ⊆ mark g fuel m o) :
    ∀ (l : List Nat) (m : Finset Nat), m ⊆ markList g fuel m l := by
  intro l
  induction l with
  | nil => intro m; exact Finset.Subset.refl m
  | cons c l ih =>
    intro m
    rw [markList_cons]
    exact (h m c).trans (ih (mark g fuel m c))

theorem subset_mark (g : Nat → List Nat) :
    ∀ (fuel : Nat) (m : Finset Nat) (o : Nat), m ⊆ mark g fuel m o := by
  intro fuel
  induction fuel with
  | zero => intro m o; exact Finset.Subset.refl m
  | succ fuel ih =>
    intro m o
    rw [mark_succ]
    by_cases h : o ∈ m
    · rw [if_pos h]
    · rw [if_neg h]
      exact (Finset.subset_insert o m).trans (subset_markList g fuel ih (g o) (insert o m))

theorem self_mem_mark (g : Nat → List Nat) (fuel : Nat) (m : Finset Nat) (o : Nat)
    (hf : 0 < fuel) : o ∈ mark g fuel m o := by
  cases fuel with
  | zero => exact absurd hf (by omega)
  | succ fuel =>
    rw [mark_succ]
    by_cases h : o ∈ m
    · rw [if_pos h]; exact h
    · rw [if_neg h]
      exact subset_markList g fuel (subset_mark g fuel) (g o) (insert o m)
        (Finset.mem_insert_self o m)

theorem ReachA.start_not_mem {g : Nat → List Nat} {m : Finset Nat} {o x : Nat}
    (h : ReachA g m o x) : x ∉ m := by
  cases h with
  | refl h => exact h
  | tail _ _ h => exact h

theorem ReachA.mono {g : Nat → List Nat} {m m' : Finset Nat} {o x : Nat}
    (hsub : m ⊆ m') (h : ReachA g m' o x) : ReachA g m o x := by
  induction h with
  | refl h => exact ReachA.refl _ (fun hc => h (hsub hc))
  | tail _ hy hm ih => exact ReachA.tail ih hy (fun hc => hm (hsub hc))

theorem ReachA.head {g : Nat → List Nat} {m : Finset Nat} {o c x : Nat}
    (ho : o ∉ m) (hc : c ∈ g o) (h : ReachA g m c x) : ReachA g m o x := by
  induction h with
  | refl h => exact ReachA.tail (ReachA.refl o ho) hc h
  | tail _ hy hm ih => exact ReachA.tail ih hy hm

theorem markList_sound_aux (g : Nat → List Nat) (fuel : Nat)
    (ih : ∀ m o x, x ∈ mark g fuel m o → x ∈ m ∨ ReachA g m o x)
    (m : Finset Nat) (o : Nat) (ho : o ∉ m) :
    ∀ (l : List Nat) (mi : Finset Nat),
      (∀ c ∈ l, c ∈ g o) → m ⊆ mi →
      (∀ z ∈ mi, z ∈ m ∨ ReachA g m o z) →
      ∀ x ∈ markList g fuel mi l, x ∈ m ∨ ReachA g m o x := by
  intro l
  induction l with
  | nil => intro mi _ _ hinv x hx; exact hinv x hx
  | cons c l ihl =>
    intro mi hl hsub hinv x hx
    rw [markList_cons] at hx
    refine ihl (mark g fuel mi c) (fun d hd => hl d (List.mem_cons_of_mem c hd))
      (hsub.trans (subset_mark g fuel mi c)) ?_ x hx
    intro z hz
    rcases ih mi c z hz with hzmi | hzA
    · exact hinv z hzmi
    · exact Or.inr (ReachA.head ho (hl c (List.mem_cons_self c l)) (ReachA.mono hsub hzA))

theorem mark_sound (g : Nat → List Nat) :
    ∀ (fuel : Nat) (m : Finset Nat) (o x : Nat),
      x ∈ mark g fuel m o → x ∈ m ∨ ReachA g m o x := by
  intro fuel
  induction fuel with
  | zero => intro m o x hx; exact Or.inl hx
  | succ fuel ih =>
    intro m o x hx
    rw [mark_succ] at hx
    by_cases h : o ∈ m
    · rw [if_pos h] at hx; exact Or.inl hx
    · rw [if_neg h] at hx
      refine markList_sound_aux g fuel ih m o h (g o) (insert o m)
        (fun c hc => hc) (Finset.subset_insert o m) ?_ x hx
      intro z hz
      rcases Finset.mem_insert.mp hz with rfl | hzm
      · exact Or.inr (ReachA.refl z h)
      · exact Or.inl hzm

theorem markList_closed_aux (g : Nat → List Nat) (U : Finset Nat)
    (_hg : ∀ a b, b ∈ g a → b ∈ U) (fuel : Nat)
    (ih : ∀ m o, o ∈ U → (U \ m).card < fuel →
      ∀ z ∈ mark g fuel m o, z ∉ m → ∀ y ∈ g z, y ∈ mark g fuel m o)
    (b : Finset Nat) :
    ∀ (l : List Nat) (mi : Finset Nat), (∀ c ∈ l, c ∈ U) → b ⊆ mi →
      (U \ mi).card < fuel →
      (∀ z ∈ mi, z ∉ b → ∀ y ∈ g z, y ∈ mi) →
      mi ⊆ markList g fuel mi l ∧
      (∀ z ∈ markList g fuel mi l, z ∉ b → ∀ y ∈ g z, y ∈ markList g fuel mi l) ∧
      (∀ c ∈ l, c ∈ markList g fuel mi l) := by
  intro l
  induction l with
  | nil =>
    intro mi _ _ _ hcl
    exact ⟨Finset.Subset.refl mi, by simpa [markList_nil] using hcl, by simp⟩
  | cons c l ihl =>
    intro mi hl hbsub hcard hcl
    have hcU : c ∈ U := hl c (List.mem_cons_self c l)
    have hfpos : 0 < fuel := by omega
    have hsub1 : mi ⊆ mark g fuel mi c := subset_mark g fuel mi c
    have hcard1 : (U \ mark g fuel mi c).card < fuel :=
      lt_of_le_of_lt
        (Finset.card_le_card (Finset.sdiff_subset_sdiff (Finset.Subset.refl U) hsub1)) hcard
    have hcl1 : ∀ z ∈ mark g fuel mi c, z ∉ b → ∀ y ∈ g z, y ∈ mark g fuel mi c := by
      intro z hz hzb y hy
      by_cases hzmi : z ∈ mi
      · exact hsub1 (hcl z hzmi hzb y hy)
      · exact ih mi c hcU hcard z hz hzmi y hy
    obtain ⟨ha, hcls, hch⟩ := ihl (mark g fuel mi c)
      (fun d hd => hl d (List.mem_cons_of_mem c hd)) (hbsub.trans hsub1) hcard1 hcl1
    rw [markList_cons]
    refine ⟨hsub1.trans ha, hcls, ?_⟩
    intro d hd
    rcases List.mem_cons.mp hd with rfl | hdl
    · exact ha (self_mem_mark g fuel mi d hfpos)
    · exact hch d hdl

theorem mark_closed (g : Nat → List Nat) (U : Finset Nat) (hg : ∀ a b, b ∈ g a → b ∈ U) :
    ∀ (fuel : Nat) (m : Finset Nat) (o : Nat), o ∈ U → (U \ m).card < fuel →
      ∀ z ∈ mark g fuel m o, z ∉ m → ∀ y ∈ g z, y ∈ mark g fuel m o := by
  intro fuel
  induction fuel with
  | zero => intro m o ho hcard; exact (Nat.not_lt_zero _ hcard).elim
  | succ fuel ih =>
    intro m o ho hcard z hz hzm y hy
    rw [mark_succ] at hz ⊢
    by_cases h : o ∈ m
    · rw [if_pos h] at hz; exact absurd hz hzm
    · rw [if_neg h] at hz ⊢
      have hmem : o ∈ U \ m := Finset.mem_sdiff.mpr ⟨ho, h⟩
      have hcard1 : 1 ≤ (U \ m).card := Finset.card_pos.mpr ⟨o, hmem⟩
      have heq : U \ insert o m = (U \ m).erase o := by
        ext t
        simp only [Finset.mem_sdiff, Finset.mem_erase, Finset.mem_insert]
        tauto
      have hbase : (U \ insert o m).card < fuel := by
        rw [heq, Finset.card_erase_of_mem hmem]
        omega
      obtain ⟨hsub, hcl, hch⟩ := markList_closed_aux g U hg fuel ih (insert o m) (g o)
        (insert o m) (fun c hc => hg o c hc) (Finset.Subset.refl _) hbase
        (fun t ht htb => absurd ht htb)
      by_cases hzo : z = o
      · subst hzo; exact hch y hy
      · refine hcl z hz ?_ y hy
        simp only [Finset.mem_insert, not_or]
        exact ⟨hzo, hzm⟩

theorem mark_complete (g : Nat → List Nat) (U : Finset Nat) (hg : ∀ a b, b ∈ g a → b ∈ U)
    (fuel : Nat) (m : Finset Nat) (o x : Nat) (hcard : (U \ m).card < fuel)
    (h : ReachA g m o x) (ho : o ∈ U) : x ∈ mark g fuel m o := by
  have hfpos : 0 < fuel := by omega
  revert ho
  induction h with
  | refl h => intro _; exact self_mem_mark g fuel m _ hfpos
  | tail hx hy hm ih =>
    intro ho
    exact mark_closed g U hg fuel m _ ho hcard _ (ih ho) hx.start_not_mem _ hy

theorem mark_mem_iff (g : Nat → List Nat) (U : Finset Nat) (hg : ∀ a b, b ∈ g a → b ∈ U)
    (fuel : Nat) (m : Finset Nat) (o : Nat) (ho : o ∈ U) (hcard : (U \ m).card < fuel)
    (x : Nat) : x ∈ mark g fuel m o ↔ x ∈ m ∨ ReachA g m o x := by
  constructor
  · exact mark_sound g fuel m o x
  · rintro (hm | hA)
    · exact subset_mark g fuel m o hm
    · exact mark_complete g U hg fuel m o x hcard hA ho

theorem ReachA.toReach {g : Nat → List Nat} {m : Finset Nat} {o x : Nat}
    (h : ReachA g m o x) : Reach g o x := by
  induction h with
  | refl _ => exact Reach.refl _
  | tail _ hy _ ih => exact Reach.tail ih hy

theorem Reach.toReachA {g : Nat → List Nat} {m : Finset Nat} {o x : Nat}
    (hc : ∀ z ∈ m, ∀ y ∈ g z, y ∈ m) (h : Reach g o x) (hx : x ∉ m) : ReachA g m o x := by
  revert hx
  induction h with
  | refl => intro hx; exact ReachA.refl _ hx
  | @tail w y hw hy ih =>
    intro hyM
    by_cases hwm : w ∈ m
    · exact absurd (hc w hwm y hy) hyM
    · exact ReachA.tail (ih hwm) hy hyM

theorem mark_mem_iff_closed (g : Nat → List Nat) (U : Finset Nat)
    (hg : ∀ a b, b ∈ g a → b ∈ U) (fuel : Nat) (m : Finset Nat) (o : Nat) (ho : o ∈ U)
    (hcard : (U \ m).card < fuel) (hc : ∀ z ∈ m, ∀ y ∈ g z, y ∈ m) (x : Nat) :
    x ∈ mark g fuel m o ↔ x ∈ m ∨ Reach g o x := by
  rw [mark_mem_iff g U hg fuel m o ho hcard x]
  constructor
  · rintro (hm | hA)
    · exact Or.inl hm
    · exact Or.inr hA.toReach
  · rintro (hm | hR)
    · exact Or.inl hm
    · by_cases hx : x ∈ m
      · exact Or.inl hx
      · exact Or.inr (Reach.toReachA hc hR hx)

theorem markList_mem_iff (g : Nat → List Nat) (U : Finset Nat)
    (hg : ∀ a b, b ∈ g a → b ∈ U) (fuel : Nat) :
    ∀ (l : List Nat) (m : Finset Nat), (∀ r ∈ l, r ∈ U) → (U \ m).card < fuel →
      (∀ z ∈ m, ∀ y ∈ g z, y ∈ m) →
      ∀ x, x ∈ markList g fuel m l ↔ x ∈ m ∨ ∃ r ∈ l, Reach g r x := by
  intro l
  induction l with
  | nil => intro m _ _ _ x; simp [markList_nil]
  | cons c l ihl =>
    intro m hl hcard hc x
    rw [markList_cons]
    have hcU : c ∈ U := hl c (List.mem_cons_self c l)
    have hchar := mark_mem_iff_closed g U hg fuel m c hcU hcard hc
    have hcl1 : ∀ z ∈ mark g fuel m c, ∀ y ∈ g z, y ∈ mark g fuel m c := by
      intro z hz y hy
      by_cases hzm : z ∈ m
      · exact subset_mark g fuel m c (hc z hzm y hy)
      · exact mark_closed g U hg fuel m c hcU hcard z hz hzm y hy
    have hcard1 : (U \ mark g fuel m c).card < fuel :=
      lt_of_le_of_lt
        (Finset.card_le_card
          (Finset.sdiff_subset_sdiff (Finset.Subset.refl U) (subset_mark g fuel m c))) hcard
    rw [ihl (mark g fuel m c) (fun r hr => hl r (List.mem_cons_of_mem c hr)) hcard1 hcl1 x,
      hchar x]
    constructor
    · rintro ((hm | hR) | ⟨r, hr, hR⟩)
      · exact Or.inl hm
      · exact Or.inr ⟨c, List.mem_cons_self c l, hR⟩
      · exact Or.inr ⟨r, List.mem_cons_of_mem c hr, hR⟩
    · rintro (hm | ⟨r, hr, hR⟩)
      · exact Or.inl (Or.inl hm)
      · rcases List.mem_cons.mp hr with rfl | hrl
        · exact Or.inl (Or.inr hR)
        · exact Or.inr ⟨r, hrl, hR⟩

theorem markPhase_eq (g : Nat → List Nat) (fuel : Nat) (s : GCState) :
    markPhase g fuel s =
      markList g fuel s.marked (setList s.roots ++ s.pinned.map Prod.fst) := by
  rw [markPhase, markList_append]

theorem mem_setList (t : Finset Nat) (r : Nat) : r ∈ setList t ↔ r ∈ t :=
  Finset.mem_sort _

theorem mem_rootsPinned (s : GCState) (r : Nat) :
    r ∈ setList s.roots ++ s.pinned.map Prod.fst ↔ RootOrPinned s r := by
  rw [List.mem_append, mem_setList]
  exact Iff.rfl

theorem markPhase_mem_iff (g : Nat → List Nat) (U : Finset Nat)
    (hg : ∀ a b, b ∈ g a → b ∈ U) (fuel : Nat) (s : GCState)
    (hroots : ∀ r ∈ s.roots, r ∈ U) (hpin : ∀ r ∈ s.pinned.map Prod.fst, r ∈ U)
    (hfuel : U.card < fuel) (hm : s.marked = ∅) (x : Nat) :
    x ∈ markPhase g fuel s ↔ ReachableFrom s g x := by
  rw [markPhase_eq]
  have hl : ∀ r ∈ setList s.roots ++ s.pinned.map Prod.fst, r ∈ U := by
    intro r hr
    rcases List.mem_append.mp hr with h | h
    · exact hroots r ((mem_setList s.roots r).mp h)
    · exact hpin r h
  have hcard : (U \ s.marked).card < fuel := by rw [hm, Finset.sdiff_empty]; exact hfuel
  have hc : ∀ z ∈ s.marked, ∀ y ∈ g z, y ∈ s.marked := by
    rw [hm]; intro z hz; exact (Finset.not_mem_empty z hz).elim
  rw [markList_mem_iff g U hg fuel _ s.marked hl hcard hc x, hm]
  simp only [Finset.not_mem_empty, false_or]
  constructor
  · rintro ⟨r, hr, hR⟩; exact ⟨r, (mem_rootsPinned s r).mp hr, hR⟩
  · rintro ⟨r, hr, hR⟩; exact ⟨r, (mem_rootsPinned s r).mpr hr, hR⟩

theorem collect_fst (g : Nat → List Nat) (fuel : Nat) (verbose : Bool) (s : GCState) :
    (collect g fuel verbose s).1 =
      { s with heap := s.heap.filter (fun o => o ∈ markPhase g fuel s),
               marked := markPhase g fuel s \ s.heap } := rfl

theorem collect_heap_mem (g : Nat → List Nat) (U : Finset Nat) (fuel : Nat)
    (verbose : Bool) (s : GCState) (hg : ∀ a b, b ∈ g a → b ∈ U)
    (hroots : ∀ r ∈ s.roots, r ∈ U) (hpin : ∀ r ∈ s.pinned.map Prod.fst, r ∈ U)
    (hfuel : U.card < fuel) (hm : s.marked = ∅) (x : Nat) :
    x ∈ (collect g fuel verbose s).1.heap ↔ x ∈ s.heap ∧ ReachableFrom s g x := by
  rw [collect_fst]
  simp only [Finset.mem_filter]
  rw [markPhase_mem_iff g U hg fuel s hroots hpin hfuel hm x]

theorem reach_gNil {x y : Nat} (h : Reach gNil x y) : x = y := by
  induction h with
  | refl => rfl
  | tail _ hy _ => exact absurd hy (List.not_mem_nil _)

theorem markPhase_stStale : markPhase gNil 2 stStale = {0} := by
  rw [markPhase]
  simp only [stStale]
  rw [setList, Finset.sort_empty]
  simp [markList_nil]

/-- Claim C1 (amended): for a finite object graph contained in `U` and a
collector state in which no object's mark flag is set when the cycle
starts, after one `collect()` an object remains in the heap iff it was a
heap object and is a root, is pinned, or is transitively reachable from a
root or pinned object via the children hooks; every other heap object is
removed from the heap. -/
theorem collect_survivor_iff (g : Nat → List Nat) (U : Finset Nat) (fuel : Nat)
    (verbose : Bool) (s : GCState) (hg : ∀ a b, b ∈ g a → b ∈ U)
    (hroots : ∀ r ∈ s.roots, r ∈ U) (hpin : ∀ r ∈ s.pinned.map Prod.fst, r ∈ U)
    (hfuel : U.card < fuel) (hm : s.marked = ∅) (x : Nat) :
    x ∈ (collect g fuel verbose s).1.heap ↔ x ∈ s.heap ∧ ReachableFrom s g x :=
  collect_heap_mem g U fuel verbose s hg hroots hpin hfuel hm x

/-- Counterexample to claim C1 as frozen: in a collector state with a
stale mark bit (reachable through the public `mark()` entry point, as in
the repository's `main`), object `0` is neither a root nor pinned nor
reachable from either, yet it remains in the heap after `collect()`. -/
theorem collect_survivor_iff_cex :
    0 ∈ (collect gNil 2 false stStale).1.heap ∧ ¬ ReachableFrom stStale gNil 0 := by
  constructor
  · rw [collect_fst]
    show 0 ∈ stStale.heap.filter (fun o => o ∈ markPhase gNil 2 stStale)
    rw [markPhase_stStale]
    simp [stStale]
  · rintro ⟨r, hr, hR⟩
    simp [RootOrPinned, stStale] at hr

/-- Witness for `collect_survivor_iff` at a three-object chain state. -/
theorem collect_survivor_iff_witness :
    ((∀ a b, b ∈ gEdge a → b ∈ UChain) ∧ (∀ r ∈ stChain.roots, r ∈ UChain) ∧
      (∀ r ∈ stChain.pinned.map Prod.fst, r ∈ UChain) ∧ UChain.card < 4 ∧
      stChain.marked = ∅) ∧
    (1 ∈ (collect gEdge 4 false stChain).1.heap ↔
      1 ∈ stChain.heap ∧ ReachableFrom stChain gEdge 1) := by
  have hg : ∀ a b, b ∈ gEdge a → b ∈ UChain := by
    intro a b h
    rw [gEdge] at h
    by_cases ha : a = 0
    · rw [if_pos ha] at h
      simp only [List.mem_singleton] at h
      subst h
      decide
    · rw [if_neg ha] at h
      exact absurd h (List.not_mem_nil b)
  have hroots : ∀ r ∈ stChain.roots, r ∈ UChain := by
    intro r hr
    simp only [stChain, Finset.mem_singleton] at hr
    subst hr
    decide
  have hpin : ∀ r ∈ stChain.pinned.map Prod.fst, r ∈ UChain := by
    intro r hr
    simp [stChain] at hr
  have hfuel : UChain.card < 4 := by decide
  exact ⟨⟨hg, hroots, hpin, hfuel, rfl⟩,
    collect_survivor_iff gEdge UChain 4 false stChain hg hroots hpin hfuel rfl 1⟩

/-- Claim C2: every object that remains in the heap after a collection
cycle has its mark flag cleared when the cycle ends, for every collector
state; marks never carry over to the next cycle. -/
theorem collect_survivor_unmarked (g : Nat → List Nat) (fuel : Nat) (verbose : Bool)
    (s : GCState) (o : Nat) (h : o ∈ (collect g fuel verbose s).1.heap) :
    o ∉ (collect g fuel verbose s).1.marked := by
  rw [collect_fst] at h ⊢
  simp only [Finset.mem_filter] at h
  simp only [Finset.mem_sdiff, not_and, not_not]
  intro _
  exact h.1

theorem markPhase_stRootMarked : markPhase gNil 2 stRootMarked = {0} := by
  rw [markPhase]
  simp only [stRootMarked]
  rw [setList, Finset.sort_singleton]
  simp only [List.map_nil, markList_nil, markList_cons, mark_succ]
  simp

/-- Witness for `collect_survivor_unmarked`: object `0` survives the cycle
at `stRootMarked` and its mark bit is clear afterwards. -/
theorem collect_survivor_unmarked_witness :
    0 ∈ (collect gNil 2 false stRootMarked).1.heap ∧
    0 ∉ (collect gNil 2 false stRootMarked).1.marked := by
  have h : 0 ∈ (collect gNil 2 false stRootMarked).1.heap := by
    rw [collect_fst]
    show 0 ∈ stRootMarked.heap.filter (fun o => o ∈ markPhase gNil 2 stRootMarked)
    rw [markPhase_stRootMarked]
    simp [stRootMarked]
  exact ⟨h, collect_survivor_unmarked gNil 2 false stRootMarked 0 h⟩

/-- Claim C7 (amended): provided no object is marked when the phase
begins, the mark phase computes exactly the reachable closure of the
roots and the pinned objects, and any iteration order of that set of
start objects yields the same marked set. -/
theorem markPhase_closure_order_independent (g : Nat → List Nat) (U : Finset Nat)
    (fuel : Nat) (s : GCState) (hg : ∀ a b, b ∈ g a → b ∈ U)
    (hroots : ∀ r ∈ s.roots, r ∈ U) (hpin : ∀ r ∈ s.pinned.map Prod.fst, r ∈ U)
    (hfuel : U.card < fuel) (hm : s.marked = ∅) :
    (∀ x, x ∈ markPhase g fuel s ↔ ReachableFrom s g x) ∧
    (∀ l : List Nat, (∀ r, r ∈ l ↔ RootOrPinned s r) →
      markList g fuel ∅ l = markPhase g fuel s) := by
  refine ⟨markPhase_mem_iff g U hg fuel s hroots hpin hfuel hm, ?_⟩
  intro l hl
  ext x
  have hlU : ∀ r ∈ l, r ∈ U := by
    intro r hr
    rcases (hl r).mp hr with h | h
    · exact hroots r h
    · exact hpin r h
  have hcard : (U \ (∅ : Finset Nat)).card < fuel := by
    rw [Finset.sdiff_empty]; exact hfuel
  rw [markList_mem_iff g U hg fuel l ∅ hlU hcard
      (fun z hz => (Finset.not_mem_empty z hz).elim) x,
    markPhase_mem_iff g U hg fuel s hroots hpin hfuel hm x]
  simp only [Finset.not_mem_empty, false_or]
  constructor
  · rintro ⟨r, hr, hR⟩; exact ⟨r, (hl r).mp hr, hR⟩
  · rintro ⟨r, hr, hR⟩; exact ⟨r, (hl r).mpr hr, hR⟩

theorem markPhase_stRootMarked_gEdge : markPhase gEdge 3 stRootMarked = {0} := by
  rw [markPhase]
  simp only [stRootMarked]
  rw [setList, Finset.sort_singleton]
  simp only [List.map_nil, markList_nil, markList_cons, mark_succ]
  simp

/-- Counterexample to claim C7 as frozen: with a stale mark on the root
`0`, the mark phase stops at `0` and never marks its child `1`, so the
marked set is not the reachable closure of roots and pinned objects. -/
theorem markPhase_closure_cex :
    1 ∉ markPhase gEdge 3 stRootMarked ∧ RootOrPinned stRootMarked 0 ∧
      Reach gEdge 0 1 := by
  refine ⟨?_, ?_, ?_⟩
  · rw [markPhase_stRootMarked_gEdge]
    simp
  · exact Or.inl (by simp [stRootMarked])
  · exact Reach.tail (Reach.refl 0) (by simp [gEdge])

/-- Witness for `markPhase_closure_order_independent` at the chain state. -/
theorem markPhase_closure_order_independent_witness :
    ((∀ a b, b ∈ gEdge a → b ∈ UChain) ∧ (∀ r ∈ stChain.roots, r ∈ UChain) ∧
      (∀ r ∈ stChain.pinned.map Prod.fst, r ∈ UChain) ∧ UChain.card < 4 ∧
      stChain.marked = ∅) ∧
    ((∀ x, x ∈ markPhase gEdge 4 stChain ↔ ReachableFrom stChain gEdge x) ∧
      (∀ l : List Nat, (∀ r, r ∈ l ↔ RootOrPinned stChain r) →
        markList gEdge 4 ∅ l = markPhase gEdge 4 stChain)) := by
  have hg : ∀ a b, b ∈ gEdge a → b ∈ UChain := by
    intro a b h
    rw [gEdge] at h
    by_cases ha : a = 0
    · rw [if_pos ha] at h
      simp only [List.mem_singleton] at h
      subst h
      decide
    · rw [if_neg ha] at h
      exact absurd h (List.not_mem_nil b)
  have hroots : ∀ r ∈ stChain.roots, r ∈ UChain := by
    intro r hr
    simp only [stChain, Finset.mem_singleton] at hr
    subst hr
    decide
  have hpin : ∀ r ∈ stChain.pinned.map Prod.fst, r ∈ UChain := by
    intro r hr
    simp [stChain] at hr
  have hfuel : UChain.card < 4 := by decide
  exact ⟨⟨hg, hroots, hpin, hfuel, rfl⟩,
    markPhase_closure_order_independent gEdge UChain 4 stChain hg hroots hpin hfuel rfl⟩

/-- Claim C8 (amended): after a cycle that starts with every mark flag
clear, `live()` returns the number of initial heap objects that are
roots, pinned, or transitively reachable from a root or pinned object. -/
theorem live_after_collect (g : Nat → List Nat) (U : Finset Nat) (fuel : Nat)
    (verbose : Bool) (s : GCState) (hg : ∀ a b, b ∈ g a → b ∈ U)
    (hroots : ∀ r ∈ s.roots, r ∈ U) (hpin : ∀ r ∈ s.pinned.map Prod.fst, r ∈ U)
    (hfuel : U.card < fuel) (hm : s.marked = ∅) :
    live (collect g fuel verbose s).1 =
      ((s.heap : Set Nat) ∩ {x | ReachableFrom s g x}).ncard := by
  have hset : ((collect g fuel verbose s).1.heap : Set Nat) =
      (s.heap : Set Nat) ∩ {x | ReachableFrom s g x} := by
    ext x
    rw [Finset.mem_coe, collect_heap_mem g U fuel verbose s hg hroots hpin hfuel hm x]
    simp only [Set.mem_inter_iff, Set.mem_setOf_eq, Finset.mem_coe]
  rw [live, ← Set.ncard_coe_Finset, hset]

theorem markPhase_stOutsideRoot : markPhase gNil 2 stOutsideRoot = insert 2 {0, 1} := by
  rw [markPhase]
  simp only [stOutsideRoot]
  rw [setList, Finset.sort_singleton]
  simp only [List.map_nil, markList_nil, markList_cons, mark_succ]
  simp [markList_nil, gNil]

/-- Counterexample to claim C8 as frozen: at `stOutsideRoot` (two
stale-marked heap objects, one root that is not a heap object) `live()`
returns `2` after the cycle, while the number of objects that are roots,
pinned, or reachable from either is `1`. -/
theorem live_after_collect_cex :
    live (collect gNil 2 false stOutsideRoot).1 = 2 ∧
      ({x | ReachableFrom stOutsideRoot gNil x} : Set Nat).ncard = 1 := by
  constructor
  · rw [live, collect_fst]
    show (stOutsideRoot.heap.filter (fun o => o ∈ markPhase gNil 2 stOutsideRoot)).card = 2
    rw [markPhase_stOutsideRoot]
    simp [stOutsideRoot, Finset.filter_insert, Finset.filter_singleton]
  · have hset : ({x | ReachableFrom stOutsideRoot gNil x} : Set Nat) = {2} := by
      ext x
      simp only [Set.mem_setOf_eq, Set.mem_singleton_iff]
      constructor
      · rintro ⟨r, hr, hR⟩
        have hr2 : r = 2 := by simpa [RootOrPinned, stOutsideRoot] using hr
        subst hr2
        exact (reach_gNil hR).symm
      · rintro rfl
        exact ⟨2, Or.inl (by simp [stOutsideRoot]), Reach.refl 2⟩
    rw [hset, Set.ncard_singleton]

/-- Witness for `live_after_collect` at the chain state: two of the three
heap objects are reachable from the root. -/
theorem live_after_collect_witness :
    ((∀ a b, b ∈ gEdge a → b ∈ UChain) ∧ (∀ r ∈ stChain.roots, r ∈ UChain) ∧
      (∀ r ∈ stChain.pinned.map Prod.fst, r ∈ UChain) ∧ UChain.card < 4 ∧
      stChain.marked = ∅) ∧
    live (collect gEdge 4 false stChain).1 =
      ((stChain.heap : Set Nat) ∩ {x | ReachableFrom stChain gEdge x}).ncard := by
  have hg : ∀ a b, b ∈ gEdge a → b ∈ UChain := by
    intro a b h
    rw [gEdge] at h
    by_cases ha : a = 0
    · rw [if_pos ha] at h
      simp only [List.mem_singleton] at h
      subst h
      decide
    · rw [if_neg ha] at h
      exact absurd h (List.not_mem_nil b)
  have hroots : ∀ r ∈ stChain.roots, r ∈ UChain := by
    intro r hr
    simp only [stChain, Finset.mem_singleton] at hr
    subst hr
    decide
  have hpin : ∀ r ∈ stChain.pinned.map Prod.fst, r ∈ UChain := by
    intro r hr
    simp [stChain] at hr
  have hfuel : UChain.card < 4 := by decide
  exact ⟨⟨hg, hroots, hpin, hfuel, rfl⟩,
    live_after_collect gEdge UChain 4 false stChain hg hroots hpin hfuel rfl⟩

/-- Claim C3: `mark()` is idempotent: on an already-marked object it
returns immediately, leaving the marked set unchanged (so the children
hook is never invoked), and marking the same object twice, directly or
through a cycle, yields the same marked set as marking it once. -/
theorem mark_idempotent (g : Nat → List Nat) (fuel : Nat) (m : Finset Nat) (o : Nat) :
    (o ∈ m → mark g fuel m o = m) ∧
    mark g fuel (mark g fuel m o) o = mark g fuel m o := by
  constructor
  · intro h
    cases fuel with
    | zero => rfl
    | succ fuel => rw [mark_succ, if_pos h]
  · cases fuel with
    | zero => rfl
    | succ fuel =>
      rw [mark_succ g fuel (mark g (fuel + 1) m o) o,
        if_pos (self_mem_mark g (fuel + 1) m o (Nat.succ_pos fuel))]

/-- Witness for `mark_idempotent`: object `0` is already marked, so
marking it changes nothing, and a second marking equals the first. -/
theorem mark_idempotent_witness :
    0 ∈ ({0} : Finset Nat) ∧ mark gNil 1 {0} 0 = {0} ∧
    mark gNil 1 (mark gNil 1 {0} 0) 0 = mark gNil 1 {0} 0 :=
  ⟨by simp, (mark_idempotent gNil 1 {0} 0).1 (by simp), (mark_idempotent gNil 1 {0} 0).2⟩

/-- Claim C4: the marking traversal terminates on every finite object
graph, reference cycles included: as soon as the recursion-depth
allowance exceeds the number of objects, the computed marked set no
longer depends on it, so the recursion needs only finitely many steps. -/
theorem mark_terminates (g : Nat → List Nat) (U : Finset Nat) (fuel₁ fuel₂ : Nat)
    (m : Finset Nat) (o : Nat) (hg : ∀ a b, b ∈ g a → b ∈ U) (ho : o ∈ U)
    (h1 : U.card < fuel₁) (h2 : U.card < fuel₂) :
    mark g fuel₁ m o = mark g fuel₂ m o := by
  have hc1 : (U \ m).card < fuel₁ :=
    lt_of_le_of_lt (Finset.card_le_card Finset.sdiff_subset) h1
  have hc2 : (U \ m).card < fuel₂ :=
    lt_of_le_of_lt (Finset.card_le_card Finset.sdiff_subset) h2
  ext x
  rw [mark_mem_iff g U hg fuel₁ m o ho hc1 x, mark_mem_iff g U hg fuel₂ m o ho hc2 x]

/-- Witness for `mark_terminates` on the two-object reference cycle
`0 → 1 → 0` rooted at `0`. -/
theorem mark_terminates_witness :
    ((∀ a b, b ∈ gPair a → b ∈ UPair) ∧ 0 ∈ UPair ∧ UPair.card < 3 ∧ UPair.card < 4) ∧
    mark gPair 3 ∅ 0 = mark gPair 4 ∅ 0 := by
  have hg : ∀ a b, b ∈ gPair a → b ∈ UPair := by
    intro a b h
    rw [gPair] at h
    by_cases ha : a = 0
    · rw [if_pos ha] at h
      simp only [List.mem_singleton] at h
      subst h
      decide
    · rw [if_neg ha] at h
      simp only [List.mem_singleton] at h
      subst h
      decide
  exact ⟨⟨hg, by decide, by decide, by decide⟩,
    mark_terminates gPair UPair 3 4 ∅ 0 hg (by decide) (by decide) (by decide)⟩

/-- Claim C9: the `verbose` flag of `collect()` only adds diagnostic
output; the resulting collector state (heap, roots, pin table, mark
bits) is identical for `verbose = true` and `verbose = false`. -/
theorem collect_verbose_noninterference (g : Nat → List Nat) (fuel : Nat) (s : GCState) :
    (collect g fuel true s).1 = (collect g fuel false s).1 := rfl

/-- Claim C10: `collect()` never modifies the root set or the pin table
(every pin count included); a cycle only reads them while mutating the
heap set and the mark bits. -/
theorem collect_preserves_roots_pinned (g : Nat → List Nat) (fuel : Nat) (verbose : Bool)
    (s : GCState) :
    (collect g fuel verbose s).1.roots = s.roots ∧
    (collect g fuel verbose s).1.pinned = s.pinned :=
  ⟨rfl, rfl⟩

theorem pinned_update (s : GCState) (l : List (Nat × Nat)) :
    ({ s with pinned := l } : GCState).pinned = l := rfl

theorem pfind_eq_none_iff {l : List (Nat × Nat)} {x : Nat} :
    pfind l x = none ↔ ∀ p ∈ l, p.1 ≠ x := by
  induction l with
  | nil => simp [pfind]
  | cons p ps ih =>
    by_cases h : p.1 = x
    · simp [pfind, h]
    · simp [pfind, h, ih]

theorem pfind_append {P l : List (Nat × Nat)} {x : Nat} (h : ∀ p ∈ P, p.1 ≠ x) :
    pfind (P ++ l) x = pfind l x := by
  induction P with
  | nil => rfl
  | cons p ps ih =>
    rw [List.cons_append]
    show (if p.1 = x then some p.2 else pfind (ps ++ l) x) = pfind l x
    rw [if_neg (h p (List.mem_cons_self p ps))]
    exact ih (fun q hq => h q (List.mem_cons_of_mem p hq))

theorem pfind_entry {P : List (Nat × Nat)} {x : Nat} (h : ∀ p ∈ P, p.1 ≠ x)
    (c : Nat) (r : List (Nat × Nat)) : pfind (P ++ (x, c) :: r) x = some c := by
  rw [pfind_append h]
  show (if x = x then some c else pfind r x) = some c
  rw [if_pos rfl]

theorem pset_append {P r : List (Nat × Nat)} {x c c' : Nat} (h : ∀ p ∈ P, p.1 ≠ x) :
    pset (P ++ (x, c) :: r) x c' = P ++ (x, c') :: r := by
  induction P with
  | nil =>
    show (if x = x then (x, c') :: r else _) = (x, c') :: r
    rw [if_pos rfl]
  | cons p ps ih =>
    rw [List.cons_append]
    show (if p.1 = x then (x, c') :: (ps ++ (x, c) :: r)
        else p :: pset (ps ++ (x, c) :: r) x c') = p :: (ps ++ (x, c') :: r)
    rw [if_neg (h p (List.mem_cons_self p ps)),
      ih (fun q hq => h q (List.mem_cons_of_mem p hq))]

theorem perase_append {P r : List (Nat × Nat)} {x c : Nat} (h : ∀ p ∈ P, p.1 ≠ x) :
    perase (P ++ (x, c) :: r) x = P ++ r := by
  induction P with
  | nil =>
    show (if x = x then r else _) = r
    rw [if_pos rfl]
  | cons p ps ih =>
    rw [List.cons_append]
    show (if p.1 = x then ps ++ (x, c) :: r
        else p :: perase (ps ++ (x, c) :: r) x) = p :: (ps ++ r)
    rw [if_neg (h p (List.mem_cons_self p ps)),
      ih (fun q hq => h q (List.mem_cons_of_mem p hq))]

theorem pin_of_absent {s : GCState} {x : Nat} (h : pfind s.pinned x = none) :
    pin s x = { s with pinned := s.pinned ++ [(x, 1)] } := by
  unfold pin
  rw [h]

theorem pin_of_found {s : GCState} {x c : Nat} (h : pfind s.pinned x = some c) :
    pin s x = { s with pinned := pset s.pinned x ((c + 1) % UINT_MOD) } := by
  unfold pin
  rw [h]

theorem unpin_of_absent {s : GCState} {x : Nat} (h : pfind s.pinned x = none) :
    unpin s x = none := by
  unfold unpin
  rw [h]

theorem unpin_of_found_pos {s : GCState} {x c : Nat} (h : pfind s.pinned x = some c)
    (hne : (c + (UINT_MOD - 1)) % UINT_MOD ≠ 0) :
    unpin s x =
      some { s with pinned := pset s.pinned x ((c + (UINT_MOD - 1)) % UINT_MOD) } := by
  unfold unpin
  rw [h]
  exact if_neg hne

theorem unpin_of_found_zero {s : GCState} {x c : Nat} (h : pfind s.pinned x = some c)
    (hz : (c + (UINT_MOD - 1)) % UINT_MOD = 0) :
    unpin s x = some { s with pinned := perase s.pinned x } := by
  unfold unpin
  rw [h]
  exact if_pos hz

theorem pinN_succ (s : GCState) (x k : Nat) : pinN s x (k + 1) = pinN (pin s x) x k := rfl

theorem unpinN_succ (s : GCState) (x k : Nat) :
    unpinN s x (k + 1) = (unpin s x).bind (fun t => unpinN t x k) := rfl

theorem pinN_run (s : GCState) (x : Nat) (P : List (Nat × Nat)) (h : ∀ p ∈ P, p.1 ≠ x) :
    ∀ (k c : Nat), pinN { s with pinned := P ++ [(x, c % UINT_MOD)] } x k
      = { s with pinned := P ++ [(x, (c + k) % UINT_MOD)] } := by
  intro k
  induction k with
  | zero => intro c; simp [pinN]
  | succ k ih =>
    intro c
    rw [pinN_succ]
    have hfound : pfind ({ s with pinned := P ++ [(x, c % UINT_MOD)] } : GCState).pinned x
        = some (c % UINT_MOD) := by
      rw [pinned_update]
      exact pfind_entry h (c % UINT_MOD) []
    rw [pin_of_found hfound, pinned_update, pset_append h, Nat.mod_add_mod]
    have harith : c + (k + 1) = c + 1 + k := by omega
    rw [harith]
    exact ih (c + 1)

theorem pinN_spec (s : GCState) (x N : Nat) (hfind : pfind s.pinned x = none)
    (h1 : 1 ≤ N) : pinN s x N = { s with pinned := s.pinned ++ [(x, N % UINT_MOD)] } := by
  obtain ⟨k, rfl⟩ : ∃ k, N = k + 1 := ⟨N - 1, by omega⟩
  have habs : ∀ p ∈ s.pinned, p.1 ≠ x := pfind_eq_none_iff.mp hfind
  rw [pinN_succ, pin_of_absent hfind]
  have h1m : (1 : Nat) % UINT_MOD = 1 := rfl
  have := pinN_run s x s.pinned habs k 1
  rw [h1m] at this
  rw [this]
  have harith : 1 + k = k + 1 := by omega
  rw [harith]

theorem unpinN_run (s : GCState) (x : Nat) (P : List (Nat × Nat)) (h : ∀ p ∈ P, p.1 ≠ x) :
    ∀ (j t : Nat), j < t → t ≤ UINT_MOD →
      unpinN { s with pinned := P ++ [(x, t % UINT_MOD)] } x j
        = some { s with pinned := P ++ [(x, (t - j) % UINT_MOD)] } := by
  have hM : UINT_MOD = 4294967296 := rfl
  intro j
  induction j with
  | zero => intro t _ _; simp [unpinN]
  | succ j ih =>
    intro t hj ht
    have hfound : pfind ({ s with pinned := P ++ [(x, t % UINT_MOD)] } : GCState).pinned x
        = some (t % UINT_MOD) := by
      rw [pinned_update]
      exact pfind_entry h (t % UINT_MOD) []
    have hdec : (t % UINT_MOD + (UINT_MOD - 1)) % UINT_MOD = t - 1 := by
      rw [Nat.mod_add_mod]
      have harith : t + (UINT_MOD - 1) = (t - 1) + UINT_MOD := by omega
      rw [harith, Nat.add_mod_right]
      exact Nat.mod_eq_of_lt (by omega)
    have hne : (t % UINT_MOD + (UINT_MOD - 1)) % UINT_MOD ≠ 0 := by
      rw [hdec]; omega
    rw [unpinN_succ, unpin_of_found_pos hfound hne, Option.some_bind, pinned_update,
      pset_append h, hdec]
    have hstore : t - 1 = (t - 1) % UINT_MOD := (Nat.mod_eq_of_lt (by omega)).symm
    rw [hstore]
    have harith2 : t - (j + 1) = t - 1 - j := by omega
    rw [harith2]
    exact ih (t - 1) (by omega) (by omega)

theorem unpin_last (s : GCState) (x : Nat) (P : List (Nat × Nat)) (h : ∀ p ∈ P, p.1 ≠ x) :
    unpin { s with pinned := P ++ [(x, 1)] } x = some { s with pinned := P } := by
  have hM : UINT_MOD = 4294967296 := rfl
  have hfound : pfind ({ s with pinned := P ++ [(x, 1)] } : GCState).pinned x = some 1 := by
    rw [pinned_update]
    exact pfind_entry h 1 []
  have hz : (1 + (UINT_MOD - 1)) % UINT_MOD = 0 := by
    have harith : 1 + (UINT_MOD - 1) = UINT_MOD := by omega
    rw [harith, Nat.mod_self]
  rw [unpin_of_found_zero hfound hz, pinned_update, perase_append h, List.append_nil]

theorem unpinN_add (x : Nat) : ∀ (a : Nat) (s : GCState) (b : Nat),
    unpinN s x (a + b) = (unpinN s x a).bind (fun t => unpinN t x b) := by
  intro a
  induction a with
  | zero => intro s b; simp [unpinN]
  | succ a ih =>
    intro s b
    have harith : a + 1 + b = (a + b) + 1 := by omega
    rw [harith, unpinN_succ, unpinN_succ]
    cases unpin s x with
    | none => rfl
    | some t => exact ih t b

theorem unpinN_one (s : GCState) (x : Nat) : unpinN s x 1 = unpin s x := by
  rw [unpinN_succ]
  cases unpin s x with
  | none => rfl
  | some t => rfl

/-- Claim C5 (amended): pinning is reference-counted through a 32-bit
`unsigned int` counter: `pin` on an object with no entry creates one with
count `1`; `pin` on a pinned object increments the count modulo `2 ^ 32`;
`unpin` decrements it the same way and removes the entry at zero.  For
every object `x` and every `N` with `1 ≤ N ≤ 2 ^ 32`, `N` pins followed
by `N` unpins leave `x` with no pin entry (the state returns to the
original), while `N` pins followed by `N - 1` unpins leave an entry with
a positive count. -/
theorem pin_unpin_counted (s : GCState) (x N : Nat) (hfind : pfind s.pinned x = none)
    (h1 : 1 ≤ N) (h2 : N ≤ UINT_MOD) :
    pfind (pin s x).pinned x = some 1 ∧
    unpinN (pinN s x N) x N = some s ∧
    (∃ t, unpinN (pinN s x N) x (N - 1) = some t ∧
      ∃ c, pfind t.pinned x = some c ∧ 0 < c) := by
  have habs : ∀ p ∈ s.pinned, p.1 ≠ x := pfind_eq_none_iff.mp hfind
  refine ⟨?_, ?_, ?_⟩
  · rw [pin_of_absent hfind, pinned_update]
    exact pfind_entry habs 1 []
  · rw [pinN_spec s x N hfind h1]
    have hsplit := unpinN_add x (N - 1)
      { s with pinned := s.pinned ++ [(x, N % UINT_MOD)] } 1
    have harith : (N - 1) + 1 = N := by omega
    rw [harith] at hsplit
    rw [hsplit, unpinN_run s x s.pinned habs (N - 1) N (by omega) h2, Option.some_bind]
    have hone : N - (N - 1) = 1 := by omega
    rw [hone, show (1 : Nat) % UINT_MOD = 1 from rfl, unpinN_one,
      unpin_last s x s.pinned habs]
  · rw [pinN_spec s x N hfind h1,
      unpinN_run s x s.pinned habs (N - 1) N (by omega) h2]
    refine ⟨_, rfl, 1, ?_, Nat.one_pos⟩
    rw [pinned_update]
    have hone : N - (N - 1) = 1 := by omega
    rw [hone, show (1 : Nat) % UINT_MOD = 1 from rfl]
    exact pfind_entry habs 1 []

/-- Counterexample to claim C5 as frozen, at `N = 2 ^ 32 + 1`: the 32-bit
pin counter wraps, so `N` pins leave a count of `1`; the first matching
unpin then erases the entry and the second fails the `assert`, aborting
the program, so `N` unpins do not end with the entry removed — no final
state exists at all. -/
theorem pin_unpin_counted_cex :
    unpinN (pinN emptyState 0 (UINT_MOD + 1)) 0 (UINT_MOD + 1) = none ∧
    ¬ ∃ t, unpinN (pinN emptyState 0 (UINT_MOD + 1)) 0 (UINT_MOD + 1) = some t := by
  have hepin : ∀ p ∈ emptyState.pinned, p.1 ≠ 0 := by
    intro p hp
    exact absurd hp (List.not_mem_nil p)
  have hnone : unpinN (pinN emptyState 0 (UINT_MOD + 1)) 0 (UINT_MOD + 1) = none := by
    rw [pinN_spec emptyState 0 (UINT_MOD + 1) rfl (by omega)]
    have hmod : (UINT_MOD + 1) % UINT_MOD = 1 := by
      rw [Nat.add_mod_left]
      rfl
    rw [hmod, unpinN_succ, unpin_last emptyState 0 emptyState.pinned hepin,
      Option.some_bind]
    have hM : UINT_MOD = (UINT_MOD - 1) + 1 := by
      have hMv : UINT_MOD = 4294967296 := rfl
      omega
    rw [hM, unpinN_succ,
      @unpin_of_absent { emptyState with pinned := emptyState.pinned } 0 rfl]
    rfl
  refine ⟨hnone, ?_⟩
  rintro ⟨t, ht⟩
  rw [hnone] at ht
  exact Option.noConfusion ht

/-- Witness for `pin_unpin_counted`: two pins and two unpins of object
`0` starting from the empty state. -/
theorem pin_unpin_counted_witness :
    (pfind emptyState.pinned 0 = none ∧ 1 ≤ 2 ∧ 2 ≤ UINT_MOD) ∧
    (pfind (pin emptyState 0).pinned 0 = some 1 ∧
      unpinN (pinN emptyState 0 2) 0 2 = some emptyState ∧
      (∃ t, unpinN (pinN emptyState 0 2) 0 (2 - 1) = some t ∧
        ∃ c, pfind t.pinned 0 = some c ∧ 0 < c)) :=
  ⟨⟨rfl, by omega, by decide⟩, pin_unpin_counted emptyState 0 2 rfl (by omega) (by decide)⟩

/-- Claim C6: `unpin` on an object with no entry in the pin table fails
the assertion: the program aborts immediately, no collector state
results, and `unpin` never succeeds on such an object. -/
theorem unpin_absent_aborts (s : GCState) (o : Nat) (h : pfind s.pinned o = none) :
    unpin s o = none :=
  unpin_of_absent h

/-- Witness for `unpin_absent_aborts` at the empty state. -/
theorem unpin_absent_aborts_witness :
    pfind emptyState.pinned 0 = none ∧ unpin emptyState 0 = none :=
  ⟨rfl, unpin_absent_aborts emptyState 0 rfl⟩

end Tn
